import Mathlib

/-!
Verification development for the screenshot-mcp server (src/index.ts, the
version with the `WindowCache` resolver layer).  The TypeScript source is
shallowly embedded: the process-global `Map`-backed cache becomes an
insertion-ordered association list, `Date.now()` becomes an explicit `now`
argument threaded through each operation, and the three external
facilities (the `GetWindowID` binary, the two `osascript` enumeration
scripts, and `screencapture` plus the filesystem) become oracle
parameters.  An oracle value `none` models the external call failing
(non-zero exit, i.e. the `await execAsync` promise rejecting); `some out`
models success with stdout `out`.
-/

namespace ScreenshotMcp

/-- Embeds the `CachedWindow` interface: one cache record, `timestamp`
being the `Date.now()` value (milliseconds) stamped by `set`. -/
structure CachedWindow where
  windowId : Int
  appName : String
  windowTitle : String
  timestamp : Nat
  deriving DecidableEq, Repr

/-- Embeds `WindowInfo`: one enumerated window with its resolved id. -/
structure WindowInfo where
  windowId : Int
  appName : String
  windowTitle : String
  deriving DecidableEq, Repr

/-- Embeds `ApplicationWindows`: one listing group.  The `windows` array
of `{windowId, windowTitle}` objects is embedded as a list of pairs. -/
structure ApplicationWindows where
  appName : String
  windows : List (Int × String)
  deriving DecidableEq, Repr

/-- The backing `Map<string, CachedWindow>` of `WindowCache`, embedded as
an insertion-ordered association list (JS `Map` iterates values in
insertion order, and `set` on an existing key keeps its position). -/
abbrev Cache := List (String × CachedWindow)

/-- `Map.prototype.get`: the value of the first (unique, for any cache a
real `Map` can reach) binding of the key. -/
def mapGet (k : String) (m : Cache) : Option CachedWindow :=
  match m with
  | [] => none
  | q :: t => if q.1 == k then some q.2 else mapGet k t

/-- `Map.prototype.set`: update the binding in place if the key is bound
(keeping its insertion position), otherwise append at the end. -/
def mapSet (k : String) (v : CachedWindow) (m : Cache) : Cache :=
  match m with
  | [] => [(k, v)]
  | q :: t => if q.1 == k then (k, v) :: t else q :: mapSet k v t

/-- `Map.prototype.delete`. -/
def mapDelete (k : String) (m : Cache) : Cache :=
  m.filter (fun p => !(p.1 == k))

namespace WindowCache

/-- `private readonly CACHE_TTL = 30000; // 30 seconds` -/
def CACHE_TTL : Nat := 30000

/-- `getCacheKey`: the cache key is the plain concatenation
`appName + "|||" + windowTitle`. -/
def getCacheKey (appName windowTitle : String) : String :=
  appName ++ "|||" ++ windowTitle

/-- `WindowCache.get`: returns the cached id (or `none`) together with
the cache after the lazy expiry-driven delete.  `Date.now()` is the
explicit `now`; the age test is `now - cached.timestamp > CACHE_TTL`
(truncated `Nat` subtraction agrees with the JS comparison, which is
false for a negative difference). -/
def get (m : Cache) (appName windowTitle : String) (now : Nat) :
    Option Int × Cache :=
  let key := getCacheKey appName windowTitle
  match mapGet key m with
  | none => (none, m)
  | some cached =>
    if now - cached.timestamp > CACHE_TTL then (none, mapDelete key m)
    else (some cached.windowId, m)

/-- `WindowCache.set`: stores the record, stamping `now`. -/
def set (m : Cache) (appName windowTitle : String) (windowId : Int)
    (now : Nat) : Cache :=
  mapSet (getCacheKey appName windowTitle) ⟨windowId, appName, windowTitle, now⟩ m

/-- `WindowCache.clear`: `this.cache.clear()`; the method returns `void`,
so the embedding returns just the emptied cache. -/
def clear (_m : Cache) : Cache := []

/-- `WindowCache.getStats`: `{ size, entries: Array.from(values()) }`. -/
def getStats (m : Cache) : Nat × List CachedWindow :=
  (m.length, m.map Prod.snd)

end WindowCache

/-- Model of the JS builtin `String.prototype.toLowerCase`:
character-wise lowercasing. -/
def jsToLowerCase (s : String) : String :=
  String.mk (s.data.map Char.toLower)

/-- Model of the JS builtin `String.prototype.trim`: drop whitespace
from both ends. -/
def jsTrim (s : String) : String :=
  String.mk
    (((s.data.dropWhile Char.isWhitespace).reverse.dropWhile
        Char.isWhitespace).reverse)

/-- Value of a non-empty string of decimal digits. -/
def digitsVal (l : List Char) : Nat :=
  l.foldl (fun a c => a * 10 + (c.toNat - 48)) 0

/-- Leading-digit parse: JS `parseInt` consumes the longest digit prefix
and ignores any trailing garbage; it is `NaN` (here `none`) only when no
leading digit exists. -/
def parseIntCore (l : List Char) : Option Int :=
  let ds := l.takeWhile Char.isDigit
  if ds.isEmpty then none else some (Int.ofNat (digitsVal ds))

/-- Model of the JS builtin `parseInt(s)` as used on `stdout.trim()`:
optional sign followed by decimal digits ( the hexadecimal `0x` form of
the builtin never arises for `GetWindowID` output and is out of the
modelled subset).  `none` models `NaN`. -/
def parseIntJs (s : String) : Option Int :=
  match s.data with
  | '-' :: rest => (parseIntCore rest).map Int.neg
  | '+' :: rest => parseIntCore rest
  | l => parseIntCore l

/-- Model of the JS builtin `String.prototype.split` with a non-empty
string separator: repeatedly strip the leftmost occurrence of `sep`.
`acc` holds the current field reversed.  The recursion is driven by a
`fuel` counter so the definition is structural and kernel-reducible;
whenever `l.length ≤ fuel` and `sep ≠ []` the fuel never runs out (each
step strictly shortens `l`), so the zero-fuel branch is unreachable
from `splitOnList`. -/
def splitOnListAux (sep : List Char) : Nat → List Char → List Char →
    List (List Char)
  | 0, l, acc => [acc.reverse ++ l]
  | fuel + 1, l, acc =>
    match l with
    | [] => [acc.reverse]
    | c :: rest =>
      if sep.isPrefixOf (c :: rest) then
        acc.reverse :: splitOnListAux sep fuel ((c :: rest).drop sep.length) []
      else splitOnListAux sep fuel rest (c :: acc)

/-- `String.prototype.split` on lists of characters. -/
def splitOnList (sep l : List Char) : List (List Char) :=
  match sep with
  | [] => [l]
  | _ :: _ => splitOnListAux sep l.length l []

/-- `String.prototype.split` on strings. -/
def jsSplit (s sep : String) : List String :=
  (splitOnList sep.data s.data).map String.mk

/-- The `GetWindowID "app" "title"` call followed by
`parseInt(stdout.trim())`: `none` when the call fails or the output does
not parse (`NaN`). -/
def gwidParsed (gwid : String → String → Option String)
    (appName windowTitle : String) : Option Int :=
  match gwid appName windowTitle with
  | none => none
  | some out => parseIntJs (jsTrim out)

/-- Result of `getFirstWindowIdForApp`, extended with counters for the
two kinds of external calls the claims talk about: `enumCalls` counts
`osascript` (accessibility enumeration) invocations and `gwidCalls`
counts `GetWindowID` invocations. -/
structure FirstWindowResult where
  windowId : Int
  cache : Cache
  enumCalls : Nat
  gwidCalls : Nat
  deriving DecidableEq, Repr

/-- Embeds `getFirstWindowIdForApp`.  `osaFirst` is the oracle for the
targeted AppleScript (`none` = `osascript` failed, caught by the outer
catch which returns `0`; `some out` = its stdout).  The fast path scans
`getStats().entries` for a case-insensitive `appName` match with no age
check; the slow path asks the script for the first window title
(sentinel `"NOT_FOUND"` or empty = failure), then resolves and caches
its id, returning `0` whenever anything fails. -/
def getFirstWindowIdForApp (gwid : String → String → Option String)
    (osaFirst : Option String) (appName : String) (c : Cache)
    (now : Nat) : FirstWindowResult :=
  match (WindowCache.getStats c).2.find?
      (fun entry => jsToLowerCase entry.appName == jsToLowerCase appName) with
  | some cachedWindow => ⟨cachedWindow.windowId, c, 0, 0⟩
  | none =>
    match osaFirst with
    | none => ⟨0, c, 1, 0⟩
    | some out =>
      let windowTitle := jsTrim out
      if windowTitle == "NOT_FOUND" || windowTitle == "" then ⟨0, c, 1, 0⟩
      else
        match gwid appName windowTitle with
        | none => ⟨0, c, 1, 1⟩
        | some idStr =>
          match parseIntJs (jsTrim idStr) with
          | some windowId =>
            ⟨windowId, WindowCache.set c appName windowTitle windowId now, 1, 1⟩
          | none => ⟨0, c, 1, 1⟩

/-- Outcome of the `windowName` branch of the `take_screenshot` handler:
either a resolved window id or the thrown
`Could not find window ... in application ...` error. -/
inductive NamedResolution where
  | resolved (windowId : Int)
  | windowNotFound
  deriving DecidableEq, Repr

/-- Embeds the `windowName` branch of the `take_screenshot` handler
(`windowId = windowCache.get(...) || 0; if (!windowId) { ... }`), with a
`GetWindowID` call counter as the last component.  A cached `0` is
indistinguishable from a miss after the `|| 0` coercion.  On a miss the
handler calls `GetWindowID`; an exec failure or a `NaN` parse is caught
and rethrown as `windowNotFound`; otherwise the parsed id is cached and
used. -/
def resolveNamedWindow (gwid : String → String → Option String)
    (appName windowName : String) (c : Cache) (now : Nat) :
    NamedResolution × Cache × Nat :=
  let r := WindowCache.get c appName windowName now
  let windowId : Int := r.1.getD 0
  if windowId == 0 then
    match gwid appName windowName with
    | none => (.windowNotFound, r.2, 1)
    | some out =>
      match parseIntJs (jsTrim out) with
      | none => (.windowNotFound, r.2, 1)
      | some n => (.resolved n, WindowCache.set r.2 appName windowName n now, 1)
  else (.resolved windowId, r.2, 0)

/-- State threaded through the `getWindowList` loop: the accumulated
`windows` array, the cache, and the list of `GetWindowID` invocations
made so far (each recorded as its `(appName, windowTitle)` argument). -/
structure ListState where
  windows : List WindowInfo
  cache : Cache
  gwidCalls : List (String × String)
  deriving DecidableEq, Repr

/-- Body of the `getWindowList` loop for one well-formed
`appName|||windowTitle` element.  Mirrors the source exactly: unless
`forceRefresh`, consult the cache (`|| 0` coercion included); on a zero
id invoke `GetWindowID` (an exec failure `continue`s, a `NaN` parse
skips caching, any parsed integer is cached); finally push the window
only when the id is a known positive integer. -/
def processParsedPair (gwid : String → String → Option String)
    (forceRefresh : Bool) (now : Nat) (st : ListState)
    (p : String × String) : ListState :=
  let pre : Int × Cache :=
    if forceRefresh then (0, st.cache)
    else
      let g := WindowCache.get st.cache p.1 p.2 now
      (g.1.getD 0, g.2)
  let windowId := pre.1
  let c1 := pre.2
  if windowId == 0 then
    let calls := st.gwidCalls ++ [(p.1, p.2)]
    match gwid p.1 p.2 with
    | none => ⟨st.windows, c1, calls⟩
    | some out =>
      match parseIntJs (jsTrim out) with
      | none => ⟨st.windows, c1, calls⟩
      | some n =>
        let c2 := WindowCache.set c1 p.1 p.2 n now
        if 0 < n then ⟨st.windows ++ [⟨n, p.1, p.2⟩], c2, calls⟩
        else ⟨st.windows, c2, calls⟩
  else
    if 0 < windowId then
      ⟨st.windows ++ [⟨windowId, p.1, p.2⟩], c1, st.gwidCalls⟩
    else ⟨st.windows, c1, st.gwidCalls⟩

/-- One iteration of the `getWindowList` loop: split the element on
`"|||"` and silently skip it unless it has exactly two fields. -/
def processWindowString (gwid : String → String → Option String)
    (forceRefresh : Bool) (now : Nat) (st : ListState) (ws : String) :
    ListState :=
  match jsSplit ws "|||" with
  | [appName, windowTitle] =>
    processParsedPair gwid forceRefresh now st (appName, windowTitle)
  | _ => st

/-- Embeds `getWindowList`.  `osaList` is the oracle for the
whole-desktop AppleScript enumeration (`none` = `osascript` failed,
caught by the outer catch which returns `[]`).  Its stdout is trimmed,
the empty output short-circuits to `[]`, and otherwise the text is split
on `", "` and each element processed in order. -/
def getWindowList (gwid : String → String → Option String)
    (osaList : Option String) (forceRefresh : Bool) (c : Cache)
    (now : Nat) : ListState :=
  match osaList with
  | none => ⟨[], c, []⟩
  | some stdout =>
    if jsTrim stdout == "" then ⟨[], c, []⟩
    else
      (jsSplit (jsTrim stdout) ", ").foldl
        (processWindowString gwid forceRefresh now) ⟨[], c, []⟩

/-- The `appMap` grouping step of `getApplicationWindowsList`: a JS
`Map<string, ApplicationWindows>` populated in enumeration order, here
an insertion-ordered list of groups. -/
def addToAppMap (groups : List ApplicationWindows) (w : WindowInfo) :
    List ApplicationWindows :=
  if groups.any (fun g => g.appName == w.appName) then
    groups.map (fun g =>
      if g.appName == w.appName then
        ⟨g.appName, g.windows ++ [(w.windowId, w.windowTitle)]⟩
      else g)
  else groups ++ [⟨w.appName, [(w.windowId, w.windowTitle)]⟩]

/-- The insertion-order grouping of the window list. -/
def groupWindows (ws : List WindowInfo) : List ApplicationWindows :=
  ws.foldl addToAppMap []

/-- Embeds `getApplicationWindowsList`: group, then
`.sort((a, b) => a.appName.localeCompare(b.appName))`.  `localeCompare`
is a host-collation builtin; it is modelled as an oracle order `lc` on
strings, and JS `Array.prototype.sort` with a consistent comparator is
modelled as a stable sort by that order. -/
def getApplicationWindowsList (lc : String → String → Prop)
    [inst : DecidableRel lc] (gwid : String → String → Option String)
    (osaList : Option String) (forceRefresh : Bool) (c : Cache)
    (now : Nat) : List ApplicationWindows × Cache :=
  let st := getWindowList gwid osaList forceRefresh c now
  (@List.insertionSort ApplicationWindows
      (fun g₁ g₂ => lc g₁.appName g₂.appName)
      (fun g₁ g₂ => inst g₁.appName g₂.appName)
      (groupWindows st.windows),
   st.cache)

/-- Embeds the `clear_cache` handler: read `getStats()` first, clear,
and report the previous entry count. -/
def clearCacheHandler (c : Cache) : String × Cache :=
  let stats := WindowCache.getStats c
  ("Cache cleared. Previously contained " ++ toString stats.1 ++ " entries.",
   WindowCache.clear c)

/-- Observable outcome of the capture phase of the `take_screenshot`
handler, after a command has been issued. -/
inductive CaptureOutcome where
  | execError
  | captureFailed
  | success
  deriving DecidableEq, Repr

/-- Embeds the tail of the `take_screenshot` handler: `await
execAsync(command)` (oracle `execResult`, `none` = the promise rejects,
landing in the outer catch as `Error taking screenshot`), then the
`existsSync(screenshotPath)` oracle; a missing file yields the
`Screenshot failed to save.` response even though the external call
reported no error, and only an existing file yields the success
response. -/
def captureAndCheck (execResult : Option Unit) (fileExists : Bool) :
    CaptureOutcome :=
  match execResult with
  | none => .execError
  | some _ => if fileExists then .success else .captureFailed

/-- The `(app, title)` pairs `getWindowList` extracts from the raw
enumeration stdout: trim, split on `", "`, keep elements with exactly
two `"|||"`-separated fields. -/
def parsePairs (raw : String) : List (String × String) :=
  (jsSplit (jsTrim raw) ", ").filterMap (fun ws =>
    match jsSplit ws "|||" with
    | [a, b] => some (a, b)
    | _ => none)

/-- The window `getWindowList` is expected to emit for a pair when every
resolution for it goes to `GetWindowID`: present exactly when the
lookup succeeds with a parsed positive id. -/
def expectedWindow (gwid : String → String → Option String)
    (p : String × String) : Option WindowInfo :=
  match gwidParsed gwid p.1 p.2 with
  | none => none
  | some n => if 0 < n then some ⟨n, p.1, p.2⟩ else none

/-- Invariant of the cache during a `getWindowList` run that starts
from the empty cache: every entry was stored this run, so its key
splits back into exactly its own `(appName, windowTitle)` pair, its
timestamp is the current tick, and its id is what `GetWindowID`
reports for that pair. -/
def CacheSynced (gwid : String → String → Option String) (now : Nat)
    (c : Cache) : Prop :=
  ∀ q ∈ c, jsSplit q.1 "|||" = [q.2.appName, q.2.windowTitle] ∧
    q.2.timestamp = now ∧
    gwidParsed gwid q.2.appName q.2.windowTitle = some q.2.windowId

/-- Join split fields back with the separator; inverse of
`splitOnList`. -/
def joinParts (sep : List Char) : List (List Char) → List Char
  | [] => []
  | [x] => x
  | x :: xs => x ++ sep ++ joinParts sep xs

/-- Code-point lexicographic comparison on character lists: the model of
the host string collation used by `localeCompare` in
`getApplicationWindowsList` (exact for the ASCII application names
exercised here). -/
def lexLeChars : List Char → List Char → Bool
  | [], _ => true
  | _ :: _, [] => false
  | a :: s, b :: t =>
    if a.toNat < b.toNat then true
    else if b.toNat < a.toNat then false
    else lexLeChars s t

/-- Code-point lexicographic order on strings. -/
def lexLe (s t : String) : Prop := lexLeChars s.data t.data = true

instance : DecidableRel lexLe := fun s t =>
  inferInstanceAs (Decidable (lexLeChars s.data t.data = true))

/-! ### Association-list lemmas for the `Map` embedding -/

theorem mapGet_mapSet_self (k : String) (v : CachedWindow) (m : Cache) :
    mapGet k (mapSet k v m) = some v := by
  induction m with
  | nil => simp [mapGet, mapSet]
  | cons q t ih =>
    by_cases hq : (q.1 == k) = true
    · simp [mapGet, mapSet, hq]
    · simp [mapGet, mapSet, hq, ih]

theorem mapGet_mapSet_ne (k k' : String) (v : CachedWindow) (m : Cache)
    (h : k' ≠ k) : mapGet k' (mapSet k v m) = mapGet k' m := by
  have hkk' : (k == k') = false := by
    simp only [beq_eq_false_iff_ne, ne_eq]
    exact fun hc => h hc.symm
  induction m with
  | nil => simp [mapGet, mapSet, hkk']
  | cons q t ih =>
    by_cases hq : (q.1 == k) = true
    · have hq' : q.1 = k := by simpa using hq
      have hqk' : (q.1 == k') = false := by rw [hq']; exact hkk'
      simp [mapGet, mapSet, hq, hqk', hkk']
    · simp only [mapSet, hq, Bool.false_eq_true, if_false]
      by_cases hqk' : (q.1 == k') = true
      · simp [mapGet, hqk']
      · simp [mapGet, hqk', ih]

theorem mapGet_mapDelete_self (k : String) (m : Cache) :
    mapGet k (mapDelete k m) = none := by
  induction m with
  | nil => rfl
  | cons q t ih =>
    by_cases hq : (q.1 == k) = true
    · simpa [mapDelete, List.filter_cons, hq] using ih
    · simpa [mapDelete, mapGet, List.filter_cons, hq] using ih

/-- Deleting a key removes exactly the entries bound to it. -/
theorem mapDelete_length (k : String) (m : Cache) :
    (mapDelete k m).length + m.countP (fun p => p.1 == k) = m.length := by
  induction m with
  | nil => rfl
  | cons q t ih =>
    by_cases hq : (q.1 == k) = true
    · simp only [mapDelete, List.filter_cons, hq, Bool.not_true,
        List.countP_cons, List.length_cons] at ih ⊢
      simp [hq]
      omega
    · simp only [mapDelete, List.filter_cons, hq, Bool.not_false,
        List.countP_cons, List.length_cons] at ih ⊢
      simp [hq]
      omega

/-- With duplicate-free keys, `set` leaves the multiplicity of its own
key at exactly one. -/
theorem countP_mapSet_self (k : String) (v : CachedWindow) (m : Cache)
    (hnd : (m.map Prod.fst).Nodup) :
    (mapSet k v m).countP (fun p => p.1 == k) = 1 := by
  induction m with
  | nil => simp [mapSet, List.countP_cons]
  | cons q t ih =>
    simp only [List.map_cons, List.nodup_cons] at hnd
    by_cases hq : (q.1 == k) = true
    · have hq' : q.1 = k := by simpa using hq
      have hz : t.countP (fun p => p.1 == k) = 0 := by
        rw [List.countP_eq_zero]
        intro p hp hc
        have hpk : p.1 = k := by simpa using hc
        have hmem : p.1 ∈ t.map Prod.fst := List.mem_map_of_mem Prod.fst hp
        rw [hpk, ← hq'] at hmem
        exact hnd.1 hmem
      simp [mapSet, hq, List.countP_cons, hz]
    · simp only [mapSet, hq, Bool.false_eq_true, if_false, List.countP_cons,
        hq]
      simpa [hq] using ih hnd.2

/-- Every entry of `mapSet k v m` comes from `m` or is the new binding. -/
theorem mem_mapSet (k : String) (v : CachedWindow) (m : Cache) :
    ∀ x ∈ mapSet k v m, x ∈ m ∨ x = (k, v) := by
  induction m with
  | nil => simp [mapSet]
  | cons q t ih =>
    intro x hx
    by_cases hq : (q.1 == k) = true
    · simp only [mapSet, hq, if_true, List.mem_cons] at hx
      rcases hx with rfl | hx
      · right; rfl
      · left; exact List.mem_cons_of_mem _ hx
    · simp only [mapSet, hq, Bool.false_eq_true, if_false,
        List.mem_cons] at hx
      rcases hx with rfl | hx
      · left; exact List.mem_cons_self _ _
      · rcases ih x hx with h1 | h1
        · left; exact List.mem_cons_of_mem _ h1
        · right; exact h1

/-- `set` preserves duplicate-freedom of the key list. -/
theorem nodup_keys_mapSet (k : String) (v : CachedWindow) (m : Cache)
    (hnd : (m.map Prod.fst).Nodup) :
    ((mapSet k v m).map Prod.fst).Nodup := by
  induction m with
  | nil => simp [mapSet]
  | cons q t ih =>
    simp only [List.map_cons, List.nodup_cons] at hnd
    by_cases hq : (q.1 == k) = true
    · have hq' : q.1 = k := by simpa using hq
      subst hq'
      simpa [mapSet, hq] using hnd
    · have hq' : q.1 ≠ k := by simpa using hq
      simp only [mapSet, hq, Bool.false_eq_true, if_false, List.map_cons,
        List.nodup_cons]
      refine ⟨?_, ih hnd.2⟩
      intro hmem
      rcases List.mem_map.mp hmem with ⟨x, hx, hxq⟩
      rcases mem_mapSet k v t x hx with h1 | h1
      · exact hnd.1 (hxq ▸ List.mem_map_of_mem Prod.fst h1)
      · apply hq'
        rw [← hxq, h1]

/-! ### Claim C3 — cache expiry on lookup -/

/-- C3: after `store(a,b,h)` at time `t₁`, a `lookup(a,b)` at any time
`t₂` with `t₂ - t₁` strictly greater than the TTL returns absent,
deletes the expired entry as a side effect, and the cache size decreases
by exactly one. -/
theorem c3_cache_expiry (c : Cache) (a b : String) (h : Int) (t₁ t₂ : Nat)
    (hnd : (c.map Prod.fst).Nodup)
    (hexp : WindowCache.CACHE_TTL < t₂ - t₁) :
    (WindowCache.get (WindowCache.set c a b h t₁) a b t₂).1 = none ∧
    mapGet (WindowCache.getCacheKey a b)
        (WindowCache.get (WindowCache.set c a b h t₁) a b t₂).2 = none ∧
    (WindowCache.get (WindowCache.set c a b h t₁) a b t₂).2.length + 1 =
      (WindowCache.set c a b h t₁).length := by
  have hv := mapGet_mapSet_self (WindowCache.getCacheKey a b)
    ⟨h, a, b, t₁⟩ c
  have hcount := countP_mapSet_self (WindowCache.getCacheKey a b)
    ⟨h, a, b, t₁⟩ c hnd
  have hlen := mapDelete_length (WindowCache.getCacheKey a b)
    (mapSet (WindowCache.getCacheKey a b) ⟨h, a, b, t₁⟩ c)
  rw [hcount] at hlen
  simp only [WindowCache.get, WindowCache.set, hv, gt_iff_lt]
  rw [if_pos (by simpa using hexp)]
  exact ⟨rfl, mapGet_mapDelete_self _ _, hlen⟩

/-- C3 witness at a concrete input. -/
theorem c3_witness :
    (WindowCache.get (WindowCache.set [] "App" "Win" 7 0) "App" "Win"
        30001).1 = none ∧
    mapGet (WindowCache.getCacheKey "App" "Win")
        (WindowCache.get (WindowCache.set [] "App" "Win" 7 0) "App" "Win"
          30001).2 = none ∧
    (WindowCache.get (WindowCache.set [] "App" "Win" 7 0) "App" "Win"
        30001).2.length + 1 =
      (WindowCache.set [] "App" "Win" 7 0).length :=
  c3_cache_expiry [] "App" "Win" 7 0 30001 (by decide) (by decide)

/-! ### Claim C1 — the TTL governs `get`, but not the fast-path scan -/

/-- C1, counterexample to the claim as stated: with a single cache entry
whose age (100000 ms) exceeds the 30-second TTL, the
`resolveFirstWindowOfApp` fast path (`getFirstWindowIdForApp`) still
returns the expired entry's handle 42 — the scan over the
`getStats()` snapshot never consults the TTL.  (The enumeration and
handle-lookup counters stay at zero, so the stale handle is what the
caller gets.) -/
theorem c1_counterexample :
    WindowCache.CACHE_TTL < 100000 - (0 : Nat) ∧
    getFirstWindowIdForApp (fun _ _ => none) none "figma"
        [(WindowCache.getCacheKey "Figma" "Doc", ⟨42, "Figma", "Doc", 0⟩)]
        100000 =
      ⟨42,
        [(WindowCache.getCacheKey "Figma" "Doc", ⟨42, "Figma", "Doc", 0⟩)],
        0, 0⟩ := by
  constructor
  · decide
  · decide

/-- C1 amended: `WindowCache.get` does treat an entry whose age exceeds
the TTL as absent — it returns `none` and deletes the entry — whereas
the fast-path scan of `getFirstWindowIdForApp` performs no age check
(see the counterexample). -/
theorem c1_amended_get_expired_absent (m : Cache) (a b : String)
    (now : Nat) (cw : CachedWindow)
    (hfound : mapGet (WindowCache.getCacheKey a b) m = some cw)
    (hexp : WindowCache.CACHE_TTL < now - cw.timestamp) :
    (WindowCache.get m a b now).1 = none ∧
    mapGet (WindowCache.getCacheKey a b)
        (WindowCache.get m a b now).2 = none := by
  simp only [WindowCache.get, hfound, gt_iff_lt]
  rw [if_pos (by simpa using hexp)]
  exact ⟨rfl, mapGet_mapDelete_self _ _⟩

/-- C1 witness at a concrete input. -/
theorem c1_witness :
    (WindowCache.get
        [(WindowCache.getCacheKey "A" "B", ⟨9, "A", "B", 10⟩)] "A" "B"
        50000).1 = none ∧
    mapGet (WindowCache.getCacheKey "A" "B")
        (WindowCache.get
          [(WindowCache.getCacheKey "A" "B", ⟨9, "A", "B", 10⟩)] "A" "B"
          50000).2 = none :=
  c1_amended_get_expired_absent
    [(WindowCache.getCacheKey "A" "B", ⟨9, "A", "B", 10⟩)] "A" "B" 50000
    ⟨9, "A", "B", 10⟩ (by decide) (by decide)

/-! ### Claim C2 — cached hit short-circuits `GetWindowID` -/

/-- C2, counterexample to the claim as stated: a cached, unexpired
handle equal to `0` is conflated with a cache miss by the
`windowCache.get(...) || 0` coercion, so the handler calls
`GetWindowID` once (and here fails with `windowNotFound`) instead of
returning the cached handle with zero calls. -/
theorem c2_counterexample :
    (100 : Nat) - 100 ≤ WindowCache.CACHE_TTL ∧
    mapGet (WindowCache.getCacheKey "A" "W")
        [(WindowCache.getCacheKey "A" "W", ⟨0, "A", "W", 100⟩)] =
      some ⟨0, "A", "W", 100⟩ ∧
    resolveNamedWindow (fun _ _ => none) "A" "W"
        [(WindowCache.getCacheKey "A" "W", ⟨0, "A", "W", 100⟩)] 100 =
      (.windowNotFound,
        [(WindowCache.getCacheKey "A" "W", ⟨0, "A", "W", 100⟩)], 1) := by
  refine ⟨by decide, by decide, by decide⟩

/-- C2 amended: if the pair's handle is cached, unexpired, and nonzero,
the `windowName` branch of `take_screenshot` returns the cached handle,
leaves the cache untouched, and makes zero `GetWindowID` calls.  (A
cached handle of `0` is treated as a miss by the `|| 0` coercion — see
the counterexample.) -/
theorem c2_amended_cached_nonzero_hit
    (gwid : String → String → Option String) (a w : String) (c : Cache)
    (now : Nat) (cw : CachedWindow)
    (hfound : mapGet (WindowCache.getCacheKey a w) c = some cw)
    (hfresh : now - cw.timestamp ≤ WindowCache.CACHE_TTL)
    (hnz : cw.windowId ≠ 0) :
    resolveNamedWindow gwid a w c now = (.resolved cw.windowId, c, 0) := by
  have hcond : ¬ WindowCache.CACHE_TTL < now - cw.timestamp :=
    Nat.not_lt.mpr hfresh
  simp only [resolveNamedWindow, WindowCache.get, hfound, gt_iff_lt,
    if_neg hcond]
  simp [hnz]

/-- C2 witness at a concrete input. -/
theorem c2_witness :
    resolveNamedWindow (fun _ _ => some "99") "App" "Win"
        [(WindowCache.getCacheKey "App" "Win", ⟨5, "App", "Win", 40⟩)]
        60 =
      (.resolved 5,
        [(WindowCache.getCacheKey "App" "Win", ⟨5, "App", "Win", 40⟩)],
        0) :=
  c2_amended_cached_nonzero_hit (fun _ _ => some "99") "App" "Win"
    [(WindowCache.getCacheKey "App" "Win", ⟨5, "App", "Win", 40⟩)] 60
    ⟨5, "App", "Win", 40⟩ (by decide) (by decide) (by decide)

/-! ### Claim C7 — case-insensitive first-window fast path -/

/-- C7: when the cache snapshot holds an entry whose `appName` matches
the requested application case-insensitively, `getFirstWindowIdForApp`
returns that (first such) entry's handle, leaves the cache unchanged,
and makes zero enumeration calls and zero `GetWindowID` calls. -/
theorem c7_first_window_fast_path
    (gwid : String → String → Option String) (osaFirst : Option String)
    (appName : String) (c : Cache) (now : Nat) (cw : CachedWindow)
    (hfound : (WindowCache.getStats c).2.find?
        (fun entry =>
          jsToLowerCase entry.appName == jsToLowerCase appName) =
      some cw) :
    getFirstWindowIdForApp gwid osaFirst appName c now =
      ⟨cw.windowId, c, 0, 0⟩ := by
  unfold getFirstWindowIdForApp
  rw [hfound]

/-- C7 witness: cached "Figma", requested "figma". -/
theorem c7_witness :
    getFirstWindowIdForApp (fun _ _ => none) (some "ignored") "figma"
        [(WindowCache.getCacheKey "Figma" "Doc1", ⟨7, "Figma", "Doc1", 3⟩)]
        5 =
      ⟨7,
        [(WindowCache.getCacheKey "Figma" "Doc1", ⟨7, "Figma", "Doc1", 3⟩)],
        0, 0⟩ :=
  c7_first_window_fast_path (fun _ _ => none) (some "ignored") "figma"
    [(WindowCache.getCacheKey "Figma" "Doc1", ⟨7, "Figma", "Doc1", 3⟩)] 5
    ⟨7, "Figma", "Doc1", 3⟩ (by decide)

/-! ### Claim C4 — clear removes everything and the removed count is
reported -/

/-- C4: the `clear_cache` operation empties the cache and reports the
number of entries removed: `WindowCache.clear` drops every entry, and
the handler's message carries the pre-clear `getStats().size`, which
equals the number of entries that were removed. -/
theorem c4_clear_cache (c : Cache) :
    (clearCacheHandler c).2 = [] ∧
    WindowCache.clear c = [] ∧
    (WindowCache.getStats c).1 = c.length - (clearCacheHandler c).2.length ∧
    (clearCacheHandler c).1 =
      "Cache cleared. Previously contained " ++
        toString (c.length - (clearCacheHandler c).2.length) ++
        " entries." := by
  refine ⟨rfl, rfl, ?_, ?_⟩ <;>
    simp [clearCacheHandler, WindowCache.getStats, WindowCache.clear]

/-! ### Claim C8 — a missing output file is a capture failure -/

/-- C8: whenever no file exists at the destination path after the
external capture call, the handler reports the capture-failed outcome
when the call itself reported no error, and never reports success in
any case. -/
theorem c8_capture_failed :
    captureAndCheck (some ()) false = .captureFailed ∧
    ∀ execResult : Option Unit,
      captureAndCheck execResult false ≠ .success := by
  refine ⟨rfl, ?_⟩
  intro execResult
  cases execResult <;> simp [captureAndCheck]

/-! ### Claim C9 — cache-key independence and delimiter collisions -/

/-- An infix of a tail is an infix of the whole list. -/
theorem isInfix_cons_of_isInfix {l t : List Char} (a : Char)
    (h : l <:+: t) : l <:+: a :: t := by
  rcases h with ⟨s, t', hst⟩
  exact ⟨a :: s, t', by rw [List.cons_append, List.cons_append, hst]⟩

/-- Injectivity of the `appName ++ "|||" ++ windowTitle` pairing at the
character-list level, under the conditions that neither app-name part
contains the delimiter and neither ends in a bar. -/
theorem delimKey_inj :
    ∀ a₁ a₂ b₁ b₂ : List Char,
      ¬ ['|', '|', '|'] <:+: a₁ → ¬ ['|', '|', '|'] <:+: a₂ →
      a₁.getLast? ≠ some '|' → a₂.getLast? ≠ some '|' →
      a₁ ++ ('|' :: '|' :: '|' :: b₁) = a₂ ++ ('|' :: '|' :: '|' :: b₂) →
      a₁ = a₂ ∧ b₁ = b₂ := by
  intro a₁
  induction a₁ with
  | nil =>
    intro a₂ b₁ b₂ h₁ h₂ e₁ e₂ heq
    rcases a₂ with _ | ⟨c1, a₂⟩
    · simp only [List.nil_append, List.cons.injEq, true_and] at heq
      exact ⟨rfl, heq⟩
    · rcases a₂ with _ | ⟨c2, a₂⟩
      · simp only [List.nil_append, List.cons_append, List.cons.injEq] at heq
        exact absurd (by simp [← heq.1]) e₂
      · rcases a₂ with _ | ⟨c3, a₂⟩
        · simp only [List.nil_append, List.cons_append,
            List.cons.injEq] at heq
          refine absurd ?_ e₂
          rw [List.getLast?_cons_cons, ← heq.2.1]
          simp
        · simp only [List.nil_append, List.cons_append,
            List.cons.injEq] at heq
          refine absurd ⟨[], a₂, ?_⟩ h₂
          simp only [List.nil_append, List.cons_append, List.cons.injEq]
          exact ⟨heq.1, heq.2.1, heq.2.2.1, trivial⟩
  | cons c t₁ ih =>
    intro a₂ b₁ b₂ h₁ h₂ e₁ e₂ heq
    rcases a₂ with _ | ⟨c', t₂⟩
    · simp only [List.nil_append, List.cons_append, List.cons.injEq] at heq
      rcases t₁ with _ | ⟨c2, t₁⟩
      · exact absurd (by simp [heq.1]) e₁
      · rcases t₁ with _ | ⟨c3, t₁⟩
        · simp only [List.cons_append, List.nil_append,
            List.cons.injEq] at heq
          refine absurd ?_ e₁
          rw [List.getLast?_cons_cons, heq.2.1]
          simp
        · simp only [List.cons_append, List.cons.injEq] at heq
          refine absurd ⟨[], t₁, ?_⟩ h₁
          simp only [List.nil_append, List.cons_append, List.cons.injEq]
          exact ⟨heq.1.symm, heq.2.1.symm, heq.2.2.1.symm, trivial⟩
    · simp only [List.cons_append, List.cons.injEq] at heq
      obtain ⟨rfl, heq⟩ := heq
      have h₁' : ¬ ['|', '|', '|'] <:+: t₁ :=
        fun hx => h₁ (isInfix_cons_of_isInfix c hx)
      have h₂' : ¬ ['|', '|', '|'] <:+: t₂ :=
        fun hx => h₂ (isInfix_cons_of_isInfix c hx)
      have e₁' : t₁.getLast? ≠ some '|' := by
        rcases t₁ with _ | ⟨d1, t₁⟩
        · simp
        · rw [← List.getLast?_cons_cons (b := d1) (a := c)]
          exact e₁
      have e₂' : t₂.getLast? ≠ some '|' := by
        rcases t₂ with _ | ⟨d2, t₂⟩
        · simp
        · rw [← List.getLast?_cons_cons (b := d2) (a := c)]
          exact e₂
      obtain ⟨ha, hb⟩ := ih t₂ b₁ b₂ h₁' h₂' e₁' e₂' heq
      exact ⟨by rw [ha], hb⟩

/-- Injectivity of `getCacheKey` at the string level, under the same
conditions on the app names. -/
theorem getCacheKey_inj (a₁ b₁ a₂ b₂ : String)
    (h₁ : ¬ "|||".data <:+: a₁.data) (h₂ : ¬ "|||".data <:+: a₂.data)
    (e₁ : a₁.data.getLast? ≠ some '|') (e₂ : a₂.data.getLast? ≠ some '|')
    (heq : WindowCache.getCacheKey a₁ b₁ = WindowCache.getCacheKey a₂ b₂) :
    a₁ = a₂ ∧ b₁ = b₂ := by
  have hdata : a₁.data ++ ('|' :: '|' :: '|' :: b₁.data) =
      a₂.data ++ ('|' :: '|' :: '|' :: b₂.data) := by
    have := congrArg String.data heq
    simpa [WindowCache.getCacheKey, String.data_append] using this
  obtain ⟨ha, hb⟩ := delimKey_inj a₁.data a₂.data b₁.data b₂.data h₁ h₂
    e₁ e₂ hdata
  exact ⟨String.ext ha, String.ext hb⟩

/-- The `lookup` result depends on the cache only through `mapGet` of
the looked-up key. -/
theorem get_fst_congr (m₁ m₂ : Cache) (a b : String) (now : Nat)
    (h : mapGet (WindowCache.getCacheKey a b) m₁ =
      mapGet (WindowCache.getCacheKey a b) m₂) :
    (WindowCache.get m₁ a b now).1 = (WindowCache.get m₂ a b now).1 := by
  rcases hX : mapGet (WindowCache.getCacheKey a b) m₂ with _ | cw
  · rw [hX] at h
    simp [WindowCache.get, h, hX]
  · rw [hX] at h
    simp only [WindowCache.get, h, hX]
    by_cases hage : WindowCache.CACHE_TTL < now - cw.timestamp
    · simp [hage]
    · simp [hage]

/-- C9, counterexample to the claim as stated: the pairs `("A", "|x")`
and `("A|", "x")` are distinct, no component contains the substring
`"|||"`, and yet their keys collide, so storing the second overwrites
the first: the lookup of `("A", "|x")` returns `1` before the second
store and `2` after it. -/
theorem c9_counterexample :
    ¬ "|||".data <:+: "A".data ∧ ¬ "|||".data <:+: "|x".data ∧
    ¬ "|||".data <:+: "A|".data ∧ ¬ "|||".data <:+: "x".data ∧
    ("A", "|x") ≠ (("A|", "x") : String × String) ∧
    WindowCache.getCacheKey "A" "|x" = WindowCache.getCacheKey "A|" "x" ∧
    (WindowCache.get (WindowCache.set [] "A" "|x" 1 0) "A" "|x" 0).1 =
      some 1 ∧
    (WindowCache.get
        (WindowCache.set (WindowCache.set [] "A" "|x" 1 0) "A|" "x" 2 0)
        "A" "|x" 0).1 = some 2 := by
  refine ⟨by decide, by decide, by decide, by decide, by decide, by decide,
    by decide, by decide⟩

/-- C9 amended: entries for distinct pairs are independent — a store on
one key never changes the result of a lookup on the other — provided
neither `appName` contains the substring `"|||"` nor ends with the
character `'|'` (the claim's weaker proviso, that no component contains
`"|||"`, is insufficient: see the counterexample).  Distinct pairs
containing the delimiter do collide — `("A|||B", "C")` and
`("A", "B|||C")` share a key, and storing one overwrites the other's
entry. -/
theorem c9_amended_key_independence (a₁ b₁ a₂ b₂ : String)
    (hne : (a₁, b₁) ≠ (a₂, b₂))
    (h₁ : ¬ "|||".data <:+: a₁.data) (h₂ : ¬ "|||".data <:+: a₂.data)
    (e₁ : a₁.data.getLast? ≠ some '|')
    (e₂ : a₂.data.getLast? ≠ some '|')
    (c : Cache) (idv : Int) (t t' : Nat) :
    ((WindowCache.get (WindowCache.set c a₂ b₂ idv t) a₁ b₁ t').1 =
      (WindowCache.get c a₁ b₁ t').1) ∧
    WindowCache.getCacheKey "A|||B" "C" =
      WindowCache.getCacheKey "A" "B|||C" ∧
    ("A|||B", "C") ≠ (("A", "B|||C") : String × String) ∧
    (WindowCache.get
        (WindowCache.set (WindowCache.set [] "A" "B|||C" 1 0) "A|||B" "C"
          2 0) "A" "B|||C" 0).1 = some 2 := by
  refine ⟨?_, by decide, by decide, by decide⟩
  have hkey : WindowCache.getCacheKey a₁ b₁ ≠ WindowCache.getCacheKey a₂ b₂ := by
    intro hk
    obtain ⟨ha, hb⟩ := getCacheKey_inj a₁ b₁ a₂ b₂ h₁ h₂ e₁ e₂ hk
    exact hne (by rw [ha, hb])
  apply get_fst_congr
  exact mapGet_mapSet_ne (WindowCache.getCacheKey a₂ b₂)
    (WindowCache.getCacheKey a₁ b₁) ⟨idv, a₂, b₂, t⟩ c hkey

/-- C9 witness at a concrete input: storing `("App", "Win2")` does not
change the lookup of `("App", "Win1")`. -/
theorem c9_witness :
    (WindowCache.get
        (WindowCache.set (WindowCache.set [] "App" "Win1" 1 0) "App"
          "Win2" 2 0) "App" "Win1" 0).1 =
      (WindowCache.get (WindowCache.set [] "App" "Win1" 1 0) "App" "Win1"
        0).1 :=
  (c9_amended_key_independence "App" "Win1" "App" "Win2" (by decide)
    (by decide) (by decide) (by decide) (by decide)
    (WindowCache.set [] "App" "Win1" 1 0) 2 0 0).1

/-! ### Claim C10 — parsing is total and silently lossy -/

/-- The `getWindowList` loop over raw elements equals the loop over the
well-formed `(app, title)` pairs: elements that do not split into
exactly two fields contribute nothing and raise nothing. -/
theorem foldl_processWindowString
    (gwid : String → String → Option String) (fr : Bool) (now : Nat) :
    ∀ (wss : List String) (st : ListState),
      wss.foldl (processWindowString gwid fr now) st =
        (wss.filterMap (fun ws =>
          match jsSplit ws "|||" with
          | [a, b] => some (a, b)
          | _ => none)).foldl (processParsedPair gwid fr now) st := by
  intro wss
  induction wss with
  | nil => intro st; rfl
  | cons ws rest ih =>
    intro st
    simp only [List.foldl_cons, List.filterMap_cons]
    rcases hsplit : jsSplit ws "|||" with _ | ⟨a, _ | ⟨b, _ | ⟨x, r⟩⟩⟩ <;>
      simp only [processWindowString, hsplit, List.foldl_cons] <;>
      rw [ih]

/-- `getWindowList` on a successful enumeration is the fold of the
per-pair body over the parsed pairs, starting from the untouched
cache. -/
theorem getWindowList_eq_foldl_pairs
    (gwid : String → String → Option String) (raw : String) (fr : Bool)
    (c : Cache) (now : Nat) :
    getWindowList gwid (some raw) fr c now =
      (parsePairs raw).foldl (processParsedPair gwid fr now) ⟨[], c, []⟩ := by
  by_cases h : jsTrim raw = ""
  · simp only [getWindowList, parsePairs, h]
    rfl
  · have hb : (jsTrim raw == "") = false := by
      simpa using h
    simp only [getWindowList, parsePairs, hb, Bool.false_eq_true, if_false]
    exact foldl_processWindowString gwid fr now _ _

/-- C10: `getWindowList` parses by splitting the trimmed output on
`", "` and each element on `"|||"`; every element that does not split
into exactly two fields is silently excluded (first conjunct: the whole
computation is the fold over the well-formed pairs only, with no error
outcome).  Consequently a title containing `", "` is mis-parsed — the
enumeration line `A|||Hello, World` yields the single pair
`("A", "Hello")`, the fragment `World` being dropped — and a title
containing `"|||"` is dropped outright.  A failed enumeration
(`osascript` rejection) degrades to the empty listing rather than an
error. -/
theorem c10_parsing_lossy (gwid : String → String → Option String)
    (raw : String) (fr : Bool) (c : Cache) (now : Nat) :
    (getWindowList gwid (some raw) fr c now =
      (parsePairs raw).foldl (processParsedPair gwid fr now) ⟨[], c, []⟩) ∧
    parsePairs "A|||Hello, World" = [("A", "Hello")] ∧
    parsePairs "A|||x|||y" = [] ∧
    getWindowList gwid none fr c now = ⟨[], c, []⟩ :=
  ⟨getWindowList_eq_foldl_pairs gwid raw fr c now, by decide, by decide,
    rfl⟩

/-! ### Split reconstruction: a two-field element is its own cache key -/

theorem splitOnListAux_ne_nil (sep : List Char) :
    ∀ (fuel : Nat) (l acc : List Char),
      splitOnListAux sep fuel l acc ≠ [] := by
  intro fuel
  induction fuel with
  | zero => intro l acc; simp [splitOnListAux]
  | succ fuel ih =>
    intro l acc
    cases l with
    | nil => simp [splitOnListAux]
    | cons c rest =>
      simp only [splitOnListAux]
      by_cases hpre : sep.isPrefixOf (c :: rest)
      · simp [hpre]
      · simpa [hpre] using ih rest (c :: acc)

theorem joinParts_cons_of_ne_nil (sep x : List Char)
    (xs : List (List Char)) (h : xs ≠ []) :
    joinParts sep (x :: xs) = x ++ sep ++ joinParts sep xs := by
  cases xs with
  | nil => exact absurd rfl h
  | cons y ys => rfl

theorem joinParts_splitOnListAux (sep : List Char) (hsep : sep ≠ []) :
    ∀ (fuel : Nat) (l acc : List Char), l.length ≤ fuel →
      joinParts sep (splitOnListAux sep fuel l acc) = acc.reverse ++ l := by
  intro fuel
  induction fuel with
  | zero =>
    intro l acc hlen
    have : l = [] := List.eq_nil_of_length_eq_zero (Nat.le_zero.mp hlen)
    subst this
    simp [splitOnListAux, joinParts]
  | succ fuel ih =>
    intro l acc hlen
    cases l with
    | nil => simp [splitOnListAux, joinParts]
    | cons c rest =>
      simp only [splitOnListAux]
      by_cases hpre : sep.isPrefixOf (c :: rest)
      · rw [if_pos hpre]
        have hp : sep <+: (c :: rest) := by
          exact List.isPrefixOf_iff_prefix.mp hpre
        obtain ⟨t, ht⟩ := hp
        have hdrop : (c :: rest).drop sep.length = t := by
          rw [← ht, List.drop_left]
        have hslen : 1 ≤ sep.length := by
          cases sep with
          | nil => exact absurd rfl hsep
          | cons s ss => simp
        have htlen : t.length ≤ fuel := by
          have := congrArg List.length ht
          simp only [List.length_append, List.length_cons] at this hlen
          omega
        rw [joinParts_cons_of_ne_nil sep acc.reverse _
          (splitOnListAux_ne_nil sep fuel _ [])]
        rw [hdrop, ih t [] htlen]
        rw [List.reverse_nil, List.nil_append, ← ht]
        simp [List.append_assoc]
      · rw [if_neg hpre, ih rest (c :: acc) (by
          simp only [List.length_cons] at hlen; omega)]
        simp

theorem joinParts_splitOnList (sep l : List Char) (hsep : sep ≠ []) :
    joinParts sep (splitOnList sep l) = l := by
  cases sep with
  | nil => exact absurd rfl hsep
  | cons s ss =>
    simpa using joinParts_splitOnListAux (s :: ss) hsep l.length l []
      (Nat.le_refl _)

/-- A raw element that splits into exactly the fields `a` and `b` is the
string `a ++ "|||" ++ b`, i.e. exactly `getCacheKey a b`. -/
theorem jsSplit_pair_reconstruct (ws a b : String)
    (h : jsSplit ws "|||" = [a, b]) :
    WindowCache.getCacheKey a b = ws := by
  have hjoin := joinParts_splitOnList "|||".data ws.data (by decide)
  unfold jsSplit at h
  rcases hparts : splitOnList "|||".data ws.data with _ | ⟨xa, _ | ⟨xb, _ | ⟨xc, xr⟩⟩⟩ <;>
    rw [hparts] at hjoin h <;> simp at h
  obtain ⟨ha, hb⟩ := h
  apply String.ext
  have hka : a.data = xa := by rw [← ha]
  have hkb : b.data = xb := by rw [← hb]
  have hkey : (WindowCache.getCacheKey a b).data =
      a.data ++ '|' :: '|' :: '|' :: b.data := by
    simp [WindowCache.getCacheKey, String.data_append]
  rw [hkey, hka, hkb, ← hjoin]
  simp [joinParts, List.append_assoc]

/-- Every pair parsed by `getWindowList` splits its own cache key back
into exactly itself. -/
theorem parsePairs_canonical (raw : String) :
    ∀ a b : String, (a, b) ∈ parsePairs raw →
      jsSplit (WindowCache.getCacheKey a b) "|||" = [a, b] := by
  intro a b hp
  rcases List.mem_filterMap.mp hp with ⟨ws, _, hws⟩
  rcases hsplit : jsSplit ws "|||" with _ | ⟨a', _ | ⟨b', _ | ⟨x, r⟩⟩⟩ <;>
    rw [hsplit] at hws <;> simp at hws
  obtain ⟨ha, hb⟩ := hws
  subst ha
  subst hb
  rw [jsSplit_pair_reconstruct ws a' b' hsplit]
  exact hsplit

/-- Distinct parsed pairs have distinct cache keys. -/
theorem parsePairs_key_inj (raw : String) :
    ∀ p ∈ parsePairs raw, ∀ p' ∈ parsePairs raw,
      WindowCache.getCacheKey p'.1 p'.2 = WindowCache.getCacheKey p.1 p.2 →
      p' = p := by
  intro p hp p' hp' hk
  have h1 := parsePairs_canonical raw p.1 p.2 hp
  have h2 := parsePairs_canonical raw p'.1 p'.2 hp'
  rw [hk, h1] at h2
  injection h2 with ha htl
  injection htl with hb _
  exact Prod.ext ha.symm hb.symm

/-! ### Claim C6 — forced refresh calls `GetWindowID` for every pair -/

/-- With `forceRefresh = true` the loop records exactly one
`GetWindowID` invocation per parsed pair, in order. -/
theorem foldl_calls_refresh (gwid : String → String → Option String)
    (now : Nat) :
    ∀ (ps : List (String × String)) (st : ListState),
      (ps.foldl (processParsedPair gwid true now) st).gwidCalls =
        st.gwidCalls ++ ps := by
  intro ps
  induction ps with
  | nil => intro st; simp
  | cons p rest ih =>
    intro st
    have hstep : (processParsedPair gwid true now st p).gwidCalls =
        st.gwidCalls ++ [p] := by
      rcases hg : gwid p.1 p.2 with _ | out
      · simp [processParsedPair, hg]
      · rcases hparse : parseIntJs (jsTrim out) with _ | n
        · simp [processParsedPair, hg, hparse]
        · by_cases hpos : 0 < n
          · simp [processParsedPair, hg, hparse, hpos]
          · simp [processParsedPair, hg, hparse, hpos]
    rw [List.foldl_cons, ih, hstep, List.append_assoc]
    rfl

/-- With `forceRefresh = true` the loop never touches cache keys that
belong to no processed pair. -/
theorem foldl_refresh_cache_ne (gwid : String → String → Option String)
    (now : Nat) (k : String) :
    ∀ (ps : List (String × String)) (st : ListState),
      (∀ p ∈ ps, WindowCache.getCacheKey p.1 p.2 ≠ k) →
      mapGet k (ps.foldl (processParsedPair gwid true now) st).cache =
        mapGet k st.cache := by
  intro ps
  induction ps with
  | nil => intro st _; rfl
  | cons p rest ih =>
    intro st hne
    rw [List.foldl_cons,
      ih _ (fun q hq => hne q (List.mem_cons_of_mem p hq))]
    have hk : k ≠ WindowCache.getCacheKey p.1 p.2 :=
      fun hc => hne p (List.mem_cons_self p rest) hc.symm
    rcases hg : gwid p.1 p.2 with _ | out
    · simp [processParsedPair, hg]
    · rcases hparse : parseIntJs (jsTrim out) with _ | n
      · simp [processParsedPair, hg, hparse]
      · by_cases hpos : 0 < n
        · simp only [processParsedPair, hg, hparse, hpos]
          simpa [WindowCache.set] using
            mapGet_mapSet_ne (WindowCache.getCacheKey p.1 p.2) k
              ⟨n, p.1, p.2, now⟩ st.cache hk
        · simp only [processParsedPair, hg, hparse, hpos]
          simpa [WindowCache.set] using
            mapGet_mapSet_ne (WindowCache.getCacheKey p.1 p.2) k
              ⟨n, p.1, p.2, now⟩ st.cache hk

/-- With `forceRefresh = true`, a pair whose lookup parses to `n` ends
with its cache entry overwritten by the fresh record `⟨n, a, b, now⟩`,
whatever was cached before. -/
theorem foldl_refresh_cache_set (gwid : String → String → Option String)
    (now : Nat) :
    ∀ (ps : List (String × String)) (st : ListState) (a b : String)
      (n : Int),
      (a, b) ∈ ps →
      (∀ p' ∈ ps,
        WindowCache.getCacheKey p'.1 p'.2 = WindowCache.getCacheKey a b →
        p' = (a, b)) →
      gwidParsed gwid a b = some n →
      mapGet (WindowCache.getCacheKey a b)
        (ps.foldl (processParsedPair gwid true now) st).cache =
        some ⟨n, a, b, now⟩ := by
  intro ps
  induction ps with
  | nil => intro st a b n hmem; cases hmem
  | cons p rest ih =>
    intro st a b n hmem hcanon hgp
    by_cases hrest : (a, b) ∈ rest
    · rw [List.foldl_cons]
      exact ih _ a b n hrest
        (fun q hq => hcanon q (List.mem_cons_of_mem p hq)) hgp
    · have hp : p = (a, b) := by
        rcases List.mem_cons.mp hmem with h1 | h1
        · exact h1.symm
        · exact absurd h1 hrest
      subst hp
      rw [List.foldl_cons]
      rw [foldl_refresh_cache_ne gwid now _ rest _ (fun q hq hc => by
        exact hrest (hcanon q (List.mem_cons_of_mem _ hq) hc ▸ hq))]
      rcases hg : gwid a b with _ | out
      · simp only [gwidParsed, hg] at hgp
        cases hgp
      · rcases hparse : parseIntJs (jsTrim out) with _ | n'
        · simp only [gwidParsed, hg, hparse] at hgp
          cases hgp
        · have hn : n' = n := by
            simp only [gwidParsed, hg, hparse, Option.some.injEq] at hgp
            exact hgp
          subst hn
          by_cases hpos : 0 < n'
          · simp only [processParsedPair, hg, hparse, hpos]
            simpa [WindowCache.set] using
              mapGet_mapSet_self (WindowCache.getCacheKey a b)
                ⟨n', a, b, now⟩ st.cache
          · simp only [processParsedPair, hg, hparse, hpos]
            simpa [WindowCache.set] using
              mapGet_mapSet_self (WindowCache.getCacheKey a b)
                ⟨n', a, b, now⟩ st.cache

/-- C6: with `forceRefresh = true`, `getWindowList` invokes
`GetWindowID` exactly once for every enumerated well-formed pair, in
enumeration order — even for pairs whose cache entries are live — and
every pair whose lookup output parses to an integer has its cache entry
overwritten with the freshly returned handle, stamped with the current
time. -/
theorem c6_forced_refresh (gwid : String → String → Option String)
    (raw : String) (c : Cache) (now : Nat) :
    (getWindowList gwid (some raw) true c now).gwidCalls =
      parsePairs raw ∧
    ∀ a b : String, ∀ n : Int, (a, b) ∈ parsePairs raw →
      gwidParsed gwid a b = some n →
      mapGet (WindowCache.getCacheKey a b)
        (getWindowList gwid (some raw) true c now).cache =
        some ⟨n, a, b, now⟩ := by
  rw [getWindowList_eq_foldl_pairs]
  constructor
  · rw [foldl_calls_refresh]
    rfl
  · intro a b n hmem hgp
    exact foldl_refresh_cache_set gwid now (parsePairs raw) ⟨[], c, []⟩
      a b n hmem
      (fun q hq hk => parsePairs_key_inj raw (a, b) hmem q hq hk) hgp

/-- C6 witness: one enumerated pair with a live (age 9 ms) cache entry
holding handle 5; the forced refresh still calls `GetWindowID` for it
and overwrites the entry with the fresh handle 7. -/
theorem c6_witness :
    (getWindowList (fun _ _ => some "7") (some "A|||B") true
        [(WindowCache.getCacheKey "A" "B", ⟨5, "A", "B", 0⟩)]
        9).gwidCalls = [("A", "B")] ∧
    mapGet (WindowCache.getCacheKey "A" "B")
        (getWindowList (fun _ _ => some "7") (some "A|||B") true
          [(WindowCache.getCacheKey "A" "B", ⟨5, "A", "B", 0⟩)]
          9).cache = some ⟨7, "A", "B", 9⟩ := by
  have h := c6_forced_refresh (fun _ _ => some "7") "A|||B"
    [(WindowCache.getCacheKey "A" "B", ⟨5, "A", "B", 0⟩)] 9
  refine ⟨h.1.trans (by decide), h.2 "A" "B" 7 (by decide) (by decide)⟩

/-! ### Claim C5 — listing is exactly the resolvable pairs, grouped and
sorted -/

theorem mapGet_mem (k : String) (m : Cache) (v : CachedWindow)
    (h : mapGet k m = some v) : (k, v) ∈ m := by
  induction m with
  | nil => cases h
  | cons q t ih =>
    by_cases hq : (q.1 == k) = true
    · have hq' : q.1 = k := by simpa using hq
      simp only [mapGet, hq, if_true, Option.some.injEq] at h
      have hqv : (k, v) = q := Prod.ext hq'.symm h.symm
      rw [hqv]
      exact List.mem_cons_self q t
    · simp only [mapGet, hq, Bool.false_eq_true, if_false] at h
      exact List.mem_cons_of_mem _ (ih h)

theorem cacheSynced_set (gwid : String → String → Option String)
    (now : Nat) (c : Cache) (a b : String) (n : Int)
    (hinv : CacheSynced gwid now c)
    (hcanon : jsSplit (WindowCache.getCacheKey a b) "|||" = [a, b])
    (hgp : gwidParsed gwid a b = some n) :
    CacheSynced gwid now (WindowCache.set c a b n now) := by
  intro q hq
  rcases mem_mapSet _ _ _ q hq with h1 | h1
  · exact hinv q h1
  · subst h1
    exact ⟨by simpa using hcanon, rfl, by simpa using hgp⟩

theorem cacheSynced_get (gwid : String → String → Option String)
    (now : Nat) (c : Cache) (a b : String) (cw : CachedWindow)
    (hinv : CacheSynced gwid now c)
    (hcanon : jsSplit (WindowCache.getCacheKey a b) "|||" = [a, b])
    (hget : mapGet (WindowCache.getCacheKey a b) c = some cw) :
    cw.appName = a ∧ cw.windowTitle = b ∧ cw.timestamp = now ∧
      gwidParsed gwid a b = some cw.windowId := by
  have hmem := mapGet_mem _ _ _ hget
  obtain ⟨hsplit', hts, hgp⟩ := hinv _ hmem
  rw [hcanon] at hsplit'
  injection hsplit' with ha htl
  injection htl with hb _
  refine ⟨ha.symm, hb.symm, hts, ?_⟩
  rw [← ha, ← hb] at hgp
  exact hgp

/-- One loop iteration starting from a synced cache appends exactly the
expected window (present iff the pair resolves to a positive id) and
keeps the cache synced. -/
theorem processParsedPair_expected (gwid : String → String → Option String)
    (fr : Bool) (now : Nat) (st : ListState) (a b : String)
    (hinv : CacheSynced gwid now st.cache)
    (hcanon : jsSplit (WindowCache.getCacheKey a b) "|||" = [a, b]) :
    (processParsedPair gwid fr now st (a, b)).windows =
      st.windows ++ (expectedWindow gwid (a, b)).toList ∧
    CacheSynced gwid now (processParsedPair gwid fr now st (a, b)).cache := by
  cases fr with
  | true =>
    rcases hg : gwid a b with _ | out
    · refine ⟨?_, ?_⟩ <;>
        simp [processParsedPair, hg, expectedWindow, gwidParsed, hinv]
    · rcases hparse : parseIntJs (jsTrim out) with _ | n
      · refine ⟨?_, ?_⟩ <;>
          simp [processParsedPair, hg, hparse, expectedWindow, gwidParsed,
            hinv]
      · have hgp : gwidParsed gwid a b = some n := by
          simp [gwidParsed, hg, hparse]
        by_cases hpos : 0 < n
        · refine ⟨by simp [processParsedPair, hg, hparse, expectedWindow,
            hgp, hpos], ?_⟩
          simp only [processParsedPair, hg, hparse, hpos, if_pos]
          simpa using cacheSynced_set gwid now st.cache a b n hinv hcanon
            hgp
        · refine ⟨by simp [processParsedPair, hg, hparse, expectedWindow,
            hgp, hpos], ?_⟩
          simp only [processParsedPair, hg, hparse, hpos]
          simpa using cacheSynced_set gwid now st.cache a b n hinv hcanon
            hgp
  | false =>
    rcases hmg : mapGet (WindowCache.getCacheKey a b) st.cache with _ | cw
    · rcases hg : gwid a b with _ | out
      · refine ⟨?_, ?_⟩ <;>
          simp [processParsedPair, WindowCache.get, hmg, hg,
            expectedWindow, gwidParsed, hinv]
      · rcases hparse : parseIntJs (jsTrim out) with _ | n
        · refine ⟨?_, ?_⟩ <;>
            simp [processParsedPair, WindowCache.get, hmg, hg, hparse,
              expectedWindow, gwidParsed, hinv]
        · have hgp : gwidParsed gwid a b = some n := by
            simp [gwidParsed, hg, hparse]
          by_cases hpos : 0 < n
          · refine ⟨by simp [processParsedPair, WindowCache.get, hmg, hg,
              hparse, expectedWindow, hgp, hpos], ?_⟩
            simp only [processParsedPair, WindowCache.get, hmg, hg, hparse,
              hpos]
            simpa using cacheSynced_set gwid now st.cache a b n hinv
              hcanon hgp
          · refine ⟨by simp [processParsedPair, WindowCache.get, hmg, hg,
              hparse, expectedWindow, hgp, hpos], ?_⟩
            simp only [processParsedPair, WindowCache.get, hmg, hg, hparse,
              hpos]
            simpa using cacheSynced_set gwid now st.cache a b n hinv
              hcanon hgp
    · obtain ⟨hca, hcb, hts, hgp⟩ :=
        cacheSynced_get gwid now st.cache a b cw hinv hcanon hmg
      have hfresh : ¬ (now - cw.timestamp > WindowCache.CACHE_TTL) := by
        rw [hts]
        simp [WindowCache.CACHE_TTL, Nat.sub_self]
      by_cases hz : cw.windowId = 0
      · rw [hz] at hgp
        rcases hg : gwid a b with _ | out
        · rw [gwidParsed, hg] at hgp
          cases hgp
        · rcases hparse : parseIntJs (jsTrim out) with _ | n
          · simp only [gwidParsed, hg, hparse] at hgp
            cases hgp
          · have hn : n = 0 := by
              simp only [gwidParsed, hg, hparse, Option.some.injEq] at hgp
              exact hgp
            subst hn
            have hgp0 : gwidParsed gwid a b = some 0 := by
              simp [gwidParsed, hg, hparse]
            refine ⟨by simp [processParsedPair, WindowCache.get, hmg,
              if_neg hfresh, hz, hg, hparse, expectedWindow, hgp0], ?_⟩
            simp only [processParsedPair, WindowCache.get, hmg,
              if_neg hfresh, hz, hg, hparse]
            simpa using cacheSynced_set gwid now st.cache a b 0 hinv
              hcanon hgp0
      · by_cases hpos : 0 < cw.windowId
        · refine ⟨by simp [processParsedPair, WindowCache.get, hmg,
            if_neg hfresh, hz, expectedWindow, hgp, hpos], by
            simp only [processParsedPair, WindowCache.get, hmg,
              if_neg hfresh]
            simpa [hz, hpos] using hinv⟩
        · refine ⟨by simp [processParsedPair, WindowCache.get, hmg,
            if_neg hfresh, hz, expectedWindow, hgp, hpos], by
            simp only [processParsedPair, WindowCache.get, hmg,
              if_neg hfresh]
            simpa [hz, hpos] using hinv⟩

/-- The loop over parsed pairs, from a synced cache, emits exactly the
expected windows in order. -/
theorem foldl_expected (gwid : String → String → Option String)
    (fr : Bool) (now : Nat) :
    ∀ (ps : List (String × String)) (st : ListState),
      CacheSynced gwid now st.cache →
      (∀ p ∈ ps,
        jsSplit (WindowCache.getCacheKey p.1 p.2) "|||" = [p.1, p.2]) →
      (ps.foldl (processParsedPair gwid fr now) st).windows =
        st.windows ++ ps.filterMap (expectedWindow gwid) ∧
      CacheSynced gwid now
        (ps.foldl (processParsedPair gwid fr now) st).cache := by
  intro ps
  induction ps with
  | nil => intro st hinv _; simpa using hinv
  | cons p rest ih =>
    intro st hinv hcanon
    obtain ⟨hw, hi⟩ := processParsedPair_expected gwid fr now st p.1 p.2
      hinv (hcanon p (List.mem_cons_self p rest))
    obtain ⟨hw', hi'⟩ := ih (processParsedPair gwid fr now st p) hi
      (fun q hq => hcanon q (List.mem_cons_of_mem p hq))
    refine ⟨?_, by simpa using hi'⟩
    rw [List.foldl_cons, hw']
    have hwp : (processParsedPair gwid fr now st p).windows =
        st.windows ++ (expectedWindow gwid p).toList := hw
    rw [hwp, List.filterMap_cons]
    rcases hE : expectedWindow gwid p with _ | w <;>
      simp [hE, List.append_assoc]

/-- The insertion-order grouping fold: names stay duplicate-free, the
group names are exactly the window app-names, and each group carries
exactly its app's windows in order. -/
theorem foldl_addToAppMap_spec :
    ∀ (ws pre : List WindowInfo) (groups : List ApplicationWindows),
      ((groups.map (fun g => g.appName)).Nodup) →
      (∀ n : String, n ∈ groups.map (fun g => g.appName) ↔
        n ∈ pre.map (fun w => w.appName)) →
      (∀ g ∈ groups, g.windows =
        (pre.filter (fun w => w.appName == g.appName)).map
          (fun w => (w.windowId, w.windowTitle))) →
      (((ws.foldl addToAppMap groups).map (fun g => g.appName)).Nodup) ∧
      (∀ n : String, n ∈ (ws.foldl addToAppMap groups).map
          (fun g => g.appName) ↔
        n ∈ (pre ++ ws).map (fun w => w.appName)) ∧
      (∀ g ∈ ws.foldl addToAppMap groups, g.windows =
        ((pre ++ ws).filter (fun w => w.appName == g.appName)).map
          (fun w => (w.windowId, w.windowTitle))) := by
  intro ws
  induction ws with
  | nil =>
    intro pre groups h1 h2 h3
    exact ⟨h1, by simpa using h2, by simpa using h3⟩
  | cons w rest ih =>
    intro pre groups h1 h2 h3
    have hstep :
        (((addToAppMap groups w).map (fun g => g.appName)).Nodup) ∧
        (∀ n : String, n ∈ (addToAppMap groups w).map
            (fun g => g.appName) ↔
          n ∈ (pre ++ [w]).map (fun w' => w'.appName)) ∧
        (∀ g ∈ addToAppMap groups w, g.windows =
          ((pre ++ [w]).filter (fun w' => w'.appName == g.appName)).map
            (fun w' => (w'.windowId, w'.windowTitle))) := by
      by_cases hany : groups.any (fun g => g.appName == w.appName) = true
      · have hA : addToAppMap groups w = groups.map (fun g =>
            if g.appName == w.appName then
              ⟨g.appName, g.windows ++ [(w.windowId, w.windowTitle)]⟩
            else g) := by
          unfold addToAppMap
          rw [if_pos hany]
        have hnames : (addToAppMap groups w).map (fun g => g.appName) =
            groups.map (fun g => g.appName) := by
          rw [hA, List.map_map]
          apply List.map_congr_left
          intro g _
          by_cases hg : (g.appName == w.appName) = true
          · simp only [Function.comp_apply, if_pos hg]
          · simp only [Function.comp_apply, if_neg hg]
        have hwmem : w.appName ∈ groups.map (fun g => g.appName) := by
          rcases List.any_eq_true.mp hany with ⟨g, hg, hgw⟩
          have : g.appName = w.appName := by simpa using hgw
          rw [← this]
          exact List.mem_map_of_mem _ hg
        refine ⟨?_, ?_, ?_⟩
        · rw [hnames]
          exact h1
        · intro n
          rw [hnames]
          simp only [List.map_append, List.mem_append, List.map_cons,
            List.map_nil, List.mem_singleton]
          constructor
          · intro hn
            exact Or.inl ((h2 n).mp hn)
          · intro hn
            rcases hn with hn | hn
            · exact (h2 n).mpr hn
            · rw [hn]
              exact hwmem
        · intro g hg
          rw [hA] at hg
          rcases List.mem_map.mp hg with ⟨g0, hg0, hg0e⟩
          by_cases hgw : (g0.appName == w.appName) = true
          · have happ : g.appName = g0.appName := by
              rw [← hg0e, if_pos hgw]
            have hwin : g.windows =
                g0.windows ++ [(w.windowId, w.windowTitle)] := by
              rw [← hg0e, if_pos hgw]
            have hgaw : g0.appName = w.appName := by simpa using hgw
            rw [hwin, happ, List.filter_append, List.map_append,
              h3 g0 hg0]
            congr 1
            simp [List.filter, hgaw]
          · have happ : g = g0 := by
              rw [← hg0e, if_neg hgw]
            subst happ
            have hfw : (w.appName == g.appName) = false := by
              have h' : ¬ g.appName = w.appName := by simpa using hgw
              simpa using fun hc => h' hc.symm
            rw [List.filter_append, List.map_append, h3 g hg0]
            simp [List.filter, hfw]
      · have hmemnames : w.appName ∉ groups.map (fun g => g.appName) := by
          intro hc
          rcases List.mem_map.mp hc with ⟨g, hg, hge⟩
          exact hany (List.any_eq_true.mpr ⟨g, hg, by simpa using hge⟩)
        refine ⟨?_, ?_, ?_⟩
        · simp only [addToAppMap, hany, Bool.false_eq_true, if_false,
            List.map_append, List.map_cons, List.map_nil]
          rw [List.nodup_append]
          exact ⟨h1, List.nodup_singleton _,
            by simpa [List.Disjoint] using
              fun n hn hc => hmemnames ((by simpa using hc : n = w.appName) ▸ hn)⟩
        · intro n
          simp only [addToAppMap, hany, Bool.false_eq_true, if_false,
            List.map_append, List.mem_append, List.map_cons, List.map_nil,
            List.mem_singleton]
          constructor
          · intro hn
            rcases hn with hn | hn
            · exact Or.inl ((h2 n).mp hn)
            · exact Or.inr hn
          · intro hn
            rcases hn with hn | hn
            · exact Or.inl ((h2 n).mpr hn)
            · exact Or.inr hn
        · intro g hg
          simp only [addToAppMap, hany, Bool.false_eq_true, if_false,
            List.mem_append, List.mem_singleton] at hg
          rcases hg with hg | hg
          · have hfw : (w.appName == g.appName) = false := by
              have : g.appName ∈ groups.map (fun g' => g'.appName) :=
                List.mem_map_of_mem _ hg
              have hne : ¬ w.appName = g.appName := by
                intro hc
                exact hmemnames (hc ▸ this)
              simpa using hne
            rw [List.filter_append, List.map_append]
            have hfil : [w].filter
                (fun w' => w'.appName == g.appName) = [] := by
              simp [List.filter, hfw]
            rw [hfil]
            simp [h3 g hg]
          · subst hg
            have hprefil : pre.filter
                (fun w' => (w'.appName == w.appName)) = [] := by
              rw [List.filter_eq_nil_iff]
              intro w' hw' hc
              have : w.appName ∈ pre.map (fun x => x.appName) := by
                have hw'a : w'.appName = w.appName := by simpa using hc
                rw [← hw'a]
                exact List.mem_map_of_mem _ hw'
              exact hmemnames ((h2 w.appName).mpr this)
            rw [List.filter_append]
            simp only []
            rw [hprefil]
            simp [List.filter]
    obtain ⟨s1, s2, s3⟩ := hstep
    obtain ⟨r1, r2, r3⟩ := ih (pre ++ [w]) (addToAppMap groups w) s1 s2 s3
    rw [List.foldl_cons]
    refine ⟨r1, ?_, ?_⟩
    · intro n
      rw [r2 n]
      simp [List.append_assoc]
    · intro g hg
      rw [r3 g hg]
      simp [List.append_assoc]

/-- The grouping of a window list: duplicate-free group names, group
names = window app names, and per-group windows in enumeration
order. -/
theorem groupWindows_spec (ws : List WindowInfo) :
    (((groupWindows ws).map (fun g => g.appName)).Nodup) ∧
    (∀ n : String, n ∈ (groupWindows ws).map (fun g => g.appName) ↔
      n ∈ ws.map (fun w => w.appName)) ∧
    (∀ g ∈ groupWindows ws, g.windows =
      (ws.filter (fun w => w.appName == g.appName)).map
        (fun w => (w.windowId, w.windowTitle))) := by
  have h := foldl_addToAppMap_spec ws [] [] (by simp) (by simp)
    (by intro g hg; cases hg)
  simpa [groupWindows] using h

theorem lexLeChars_total : ∀ s t : List Char,
    lexLeChars s t = true ∨ lexLeChars t s = true := by
  intro s
  induction s with
  | nil => intro t; left; rfl
  | cons a s ih =>
    intro t
    cases t with
    | nil => right; rfl
    | cons b t =>
      by_cases h1 : a.toNat < b.toNat
      · left
        simp [lexLeChars, h1]
      · by_cases h2 : b.toNat < a.toNat
        · right
          simp [lexLeChars, h2]
        · rcases ih t with h | h
          · left
            simpa [lexLeChars, h1, h2] using h
          · right
            simp only [lexLeChars, if_neg h2, if_neg h1]
            exact h

theorem lexLeChars_trans : ∀ s t u : List Char,
    lexLeChars s t = true → lexLeChars t u = true →
    lexLeChars s u = true := by
  intro s
  induction s with
  | nil => intro t u _ _; rfl
  | cons a s ih =>
    intro t u h1 h2
    cases t with
    | nil => simp [lexLeChars] at h1
    | cons b t =>
      cases u with
      | nil => simp [lexLeChars] at h2
      | cons c u =>
        simp only [lexLeChars] at h1 h2 ⊢
        by_cases hab : a.toNat < b.toNat
        · by_cases hbc : b.toNat < c.toNat
          · rw [if_pos (by omega)]
          · by_cases hcb : c.toNat < b.toNat
            · rw [if_neg hbc, if_pos hcb] at h2
              cases h2
            · rw [if_pos (by omega)]
        · by_cases hba : b.toNat < a.toNat
          · rw [if_neg hab, if_pos hba] at h1
            cases h1
          · by_cases hbc : b.toNat < c.toNat
            · rw [if_pos (by omega)]
            · by_cases hcb : c.toNat < b.toNat
              · rw [if_neg hbc, if_pos hcb] at h2
                cases h2
              · rw [if_neg hab, if_neg hba] at h1
                rw [if_neg hbc, if_neg hcb] at h2
                rw [if_neg (by omega), if_neg (by omega)]
                exact ih t u h1 h2

theorem lexLe_total (s t : String) : lexLe s t ∨ lexLe t s :=
  lexLeChars_total s.data t.data

theorem lexLe_trans (s t u : String) (h1 : lexLe s t) (h2 : lexLe t u) :
    lexLe s u :=
  lexLeChars_trans s.data t.data u.data h1 h2

/-- C5, counterexample to the claim as stated: for the single enumerated
pair `("A", "B")` the handle-lookup facility succeeds (it returns the
text `"0"`, which parses to the integer 0), yet the pair is dropped
from the listing — the result is not "exactly the pairs whose
handle-lookup succeeded". -/
theorem c5_counterexample :
    gwidParsed (fun _ _ => some "0") "A" "B" = some 0 ∧
    (getWindowList (fun _ _ => some "0") (some "A|||B") false []
        0).windows = [] ∧
    (getApplicationWindowsList lexLe (fun _ _ => some "0")
        (some "A|||B") false [] 0).1 = [] := by
  refine ⟨by decide, by decide, by decide⟩

/-- C5 amended: resolving from an empty cache, `listAll` returns exactly
the well-formed enumerated pairs whose handle-lookup succeeds with
output parsing to a positive integer (pairs whose lookup fails, or
yields an unparseable or non-positive value, are dropped without
error), grouped one group per distinct application (duplicate-free
group names covering exactly the listed windows' applications), with
groups sorted by application name under the modelled host collation
(code-point lexicographic order), and, within each group, the windows
in original enumeration order. -/
theorem c5_amended_listing (gwid : String → String → Option String)
    (raw : String) (fr : Bool) (now : Nat) :
    (getWindowList gwid (some raw) fr [] now).windows =
      (parsePairs raw).filterMap (expectedWindow gwid) ∧
    (((getApplicationWindowsList lexLe gwid (some raw) fr [] now).1.map
        (fun g => g.appName)).Nodup) ∧
    List.Sorted lexLe
      ((getApplicationWindowsList lexLe gwid (some raw) fr [] now).1.map
        (fun g => g.appName)) ∧
    (∀ n : String,
      n ∈ (getApplicationWindowsList lexLe gwid (some raw) fr []
          now).1.map (fun g => g.appName) ↔
      n ∈ (getWindowList gwid (some raw) fr [] now).windows.map
          (fun w => w.appName)) ∧
    (∀ g ∈ (getApplicationWindowsList lexLe gwid (some raw) fr [] now).1,
      g.windows =
        ((getWindowList gwid (some raw) fr [] now).windows.filter
          (fun w => w.appName == g.appName)).map
          (fun w => (w.windowId, w.windowTitle))) := by
  have hwin : (getWindowList gwid (some raw) fr [] now).windows =
      (parsePairs raw).filterMap (expectedWindow gwid) := by
    rw [getWindowList_eq_foldl_pairs]
    have h := foldl_expected gwid fr now (parsePairs raw) ⟨[], [], []⟩
      (by intro q hq; cases hq)
      (fun p hp => parsePairs_canonical raw p.1 p.2 hp)
    simpa using h.1
  obtain ⟨hnodup, hmemiff, hwindows⟩ :=
    groupWindows_spec (getWindowList gwid (some raw) fr [] now).windows
  haveI hTot : IsTotal ApplicationWindows
      (fun g₁ g₂ => lexLe g₁.appName g₂.appName) :=
    ⟨fun g₁ g₂ => lexLe_total g₁.appName g₂.appName⟩
  haveI hTrans : IsTrans ApplicationWindows
      (fun g₁ g₂ => lexLe g₁.appName g₂.appName) :=
    ⟨fun x y z => lexLe_trans x.appName y.appName z.appName⟩
  have hperm :
      (getApplicationWindowsList lexLe gwid (some raw) fr [] now).1.Perm
        (groupWindows (getWindowList gwid (some raw) fr [] now).windows) :=
    List.perm_insertionSort _ _
  have hsorted : List.Sorted
      (fun g₁ g₂ : ApplicationWindows => lexLe g₁.appName g₂.appName)
      (getApplicationWindowsList lexLe gwid (some raw) fr [] now).1 :=
    List.sorted_insertionSort _ _
  have hpermnames :
      ((getApplicationWindowsList lexLe gwid (some raw) fr [] now).1.map
        (fun g => g.appName)).Perm
        ((groupWindows (getWindowList gwid (some raw) fr []
          now).windows).map (fun g => g.appName)) :=
    hperm.map _
  refine ⟨hwin, ?_, ?_, ?_, ?_⟩
  · exact hpermnames.nodup_iff.mpr hnodup
  · exact List.pairwise_map.mpr hsorted
  · intro n
    exact (hpermnames.mem_iff).trans (hmemiff n)
  · intro g hg
    exact hwindows g (hperm.mem_iff.mp hg)

/-- C5 witness, the spec's end-to-end scenario: enumeration yields
`Figma|||Design A, Figma|||Design B, Mail|||Inbox`, and the lookups
resolve to 10, 11 and 12; the flat listing is exactly those three
windows, and the sorted `Figma` group holds its two windows in
enumeration order. -/
theorem c5_witness :
    (getWindowList
        (fun _ b => if b == "Design A" then some "10"
          else if b == "Design B" then some "11" else some "12")
        (some "Figma|||Design A, Figma|||Design B, Mail|||Inbox") false
        [] 0).windows =
      [⟨10, "Figma", "Design A"⟩, ⟨11, "Figma", "Design B"⟩,
        ⟨12, "Mail", "Inbox"⟩] ∧
    (⟨"Figma", [(10, "Design A"), (11, "Design B")]⟩ :
        ApplicationWindows).windows =
      ((getWindowList
          (fun _ b => if b == "Design A" then some "10"
            else if b == "Design B" then some "11" else some "12")
          (some "Figma|||Design A, Figma|||Design B, Mail|||Inbox") false
          [] 0).windows.filter
        (fun w => w.appName ==
          (⟨"Figma", [(10, "Design A"), (11, "Design B")]⟩ :
            ApplicationWindows).appName)).map
        (fun w => (w.windowId, w.windowTitle)) := by
  have h := c5_amended_listing
    (fun _ b => if b == "Design A" then some "10"
      else if b == "Design B" then some "11" else some "12")
    "Figma|||Design A, Figma|||Design B, Mail|||Inbox" false 0
  refine ⟨h.1.trans (by decide), ?_⟩
  exact h.2.2.2.2 ⟨"Figma", [(10, "Design A"), (11, "Design B")]⟩
    (by decide)

end ScreenshotMcp
